import Mathlib

/-!
# Verification of the rusty-words review engine

A shallow embedding, in Lean 4, of the core of the `rusty-words` vocabulary
drill program: the answer judge (`crates/rusty-words-common/src/judgement.rs`),
the direction-merge operation and the index/import operations
(`crates/rusty-words-common/src/model.rs`), and the review-session scheduler
(`crates/rusty-words-cli/src/tui.rs`).

Rust strings are modelled as `List Char`; `usize` counters as `Nat`
(no overflow-relevant arithmetic occurs: all counters are small).
-/

/-- The Unicode `White_Space` code points.  Rust's `str::trim` removes exactly
the characters for which `char::is_whitespace` holds from both ends. -/
def isRustWhitespace (c : Char) : Bool :=
  let n := c.toNat
  (decide (9 ≤ n) && decide (n ≤ 13)) || decide (n = 32) || decide (n = 0x85) ||
    decide (n = 0xA0) || decide (n = 0x1680) ||
    (decide (0x2000 ≤ n) && decide (n ≤ 0x200A)) || decide (n = 0x2028) ||
    decide (n = 0x2029) || decide (n = 0x202F) || decide (n = 0x205F) ||
    decide (n = 0x3000)

/-- `str::trim`: drop whitespace from both ends. -/
def rustTrim (l : List Char) : List Char :=
  ((l.dropWhile isRustWhitespace).reverse.dropWhile isRustWhitespace).reverse

/-- ASCII lower-casing of one character, as in `u8::to_ascii_lowercase`. -/
def asciiLower (c : Char) : Char :=
  if decide (65 ≤ c.toNat) && decide (c.toNat ≤ 90) then Char.ofNat (c.toNat + 32) else c

/-- `str::eq_ignore_ascii_case`: equality after ASCII case folding. -/
def eqIgnoreAsciiCase (a b : List Char) : Bool :=
  a.map asciiLower == b.map asciiLower

/-- Length of the greedy regex match `\(.*\)` starting just after an opening
parenthesis: `.` does not match a newline, and the greedy `.*` extends to the
last `)` before the next newline.  `none` when no `)` follows on that line. -/
def parenMatchLen (rest : List Char) : Option Nat :=
  let seg := rest.takeWhile (fun d => !(d == '\n'))
  if seg.contains ')' then
    some (seg.length - (seg.reverse.takeWhile (fun d => !(d == ')'))).length)
  else
    none

/-- Fuel-indexed worker for `stripParens`; every step strictly shortens the
list, so fuel equal to the list length always suffices (the `0` branch is
unreachable from `stripParens`). -/
def stripParensFuel : Nat → List Char → List Char
  | 0, l => l
  | _ + 1, [] => []
  | fuel + 1, c :: rest =>
    if c == '(' then
      match parenMatchLen rest with
      | some k => stripParensFuel fuel (rest.drop k)
      | none => c :: stripParensFuel fuel rest
    else c :: stripParensFuel fuel rest

/-- `regex_replace_all!(r"\(.*\)", x, "")`: delete every (non-overlapping,
leftmost, greedy) match of `\(.*\)` from the string. -/
def stripParens (l : List Char) : List Char :=
  stripParensFuel l.length l

/-- `x.replace(['(', ')', ' '], "")`: remove all parentheses and spaces. -/
def removeParenSpace (l : List Char) : List Char :=
  l.filter fun c => !(c == '(' || c == ')' || c == ' ')

/-- `[...].join(", ")` on a list of strings. -/
def joinComma (xs : List (List Char)) : List Char :=
  List.intercalate [',', ' '] xs

/-- The two quiz methods of `judgement.rs` (`Write` / `Mpc`). -/
inductive TryMethod
  | write
  | mpc
deriving DecidableEq

/-- The `TryMethod::Write` arm of `check_word_`'s candidate test:
the trimmed input must ASCII-case-insensitively equal the trimmed candidate
`x`, or `x` with the greedy regex `\(.*\)` deleted and re-trimmed, or `x`
with all `'('`, `')'` and `' '` characters removed and re-trimmed. -/
def writeMatches (input cand : List Char) : Bool :=
  let i := rustTrim input
  let x := rustTrim cand
  let y := rustTrim (stripParens x)
  let z := rustTrim (removeParenSpace x)
  eqIgnoreAsciiCase i x || eqIgnoreAsciiCase i y || eqIgnoreAsciiCase i z

/-- `check_word_`: does any candidate match under the given method?
(`Mpc` compares raw strings for exact equality.) -/
def checkWordAux (m : TryMethod) (input : List Char) (check : List (List Char)) : Bool :=
  check.any fun x =>
    match m with
    | .write => writeMatches input x
    | .mpc => input == x

/-- `check_word` of `judgement.rs`: a non-empty candidate list is required,
then either some candidate matches or the whole list joined with `", "`
matches as a single candidate. -/
def check_word (m : TryMethod) (input : List Char) (check : List (List Char)) : Bool :=
  !check.isEmpty &&
    (checkWordAux m input check || checkWordAux m input [joinComma check])

/-- Fuel-indexed worker for `specRemoveEveryParen`; fuel equal to the list
length always suffices. -/
def specRemoveEveryParenFuel : Nat → List Char → List Char
  | 0, l => l
  | _ + 1, [] => []
  | fuel + 1, c :: rest =>
    if c == '(' then
      match rest.findIdx? (fun d => d == ')') with
      | some k => specRemoveEveryParenFuel fuel (rest.drop (k + 1))
      | none => c :: specRemoveEveryParenFuel fuel rest
    else c :: specRemoveEveryParenFuel fuel rest

/-- Follows the spec's words for claim C5 ("the candidate with every
parenthesized substring (`(...)`) removed"): each minimal `( ... )` group is
deleted separately, scanning left to right. -/
def specRemoveEveryParen (l : List Char) : List Char :=
  specRemoveEveryParenFuel l.length l

/-- Follows the spec's words for claim C5: the `Write` candidate test with
"every parenthesized substring removed and re-trimmed" in place of the code's
greedy regex deletion. -/
def specWriteMatches (input cand : List Char) : Bool :=
  let i := rustTrim input
  let x := rustTrim cand
  eqIgnoreAsciiCase i x || eqIgnoreAsciiCase i (rustTrim (specRemoveEveryParen x)) ||
    eqIgnoreAsciiCase i (rustTrim (removeParenSpace x))

/-- Follows the spec's words for claim C5: the full `Write`-method check with
the per-candidate test `specWriteMatches`. -/
def specCheckWrite (input : List Char) (check : List (List Char)) : Bool :=
  !check.isEmpty &&
    (check.any (specWriteMatches input) || specWriteMatches input (joinComma check))

/-- The four word directions of `model.rs` (`Auto`, `TD`, `DT`, `Both`). -/
inductive WordsDirection
  | Auto
  | TD
  | DT
  | Both
deriving DecidableEq

/-- `impl BitAnd for WordsDirection` of `model.rs`: the direction-merge
operation, with the match arms in source order. -/
def WordsDirection.merge (a b : WordsDirection) : WordsDirection :=
  match a, b with
  | .Auto, e => e
  | e, .Auto => e
  | .TD, .DT => .DT
  | .DT, .TD => .DT
  | .TD, .TD => .TD
  | .DT, .DT => .DT
  | _, .Both => .Both
  | .Both, _ => .Both

/-- `WordsEntry` of `model.rs`: one word with its synonyms, acceptable
definitions, per-word direction and persisted correct-answer counter. -/
structure WordsEntry where
  terms : List (List Char)
  definitions : List (List Char)
  direction : WordsDirection
  times_answered_correctly : Nat
deriving DecidableEq

instance : Inhabited WordsEntry :=
  ⟨⟨[], [], .TD, 0⟩⟩

/-- `WordsMeta`: per-list metadata.  The fields used by the scheduler are
`progress` (resume cursor) and `shuffle_map` (persisted permutation, a
`HashMap<usize, usize>` modelled as an association list); `tui.rs` reads and
writes both.  The remaining fields are carried opaquely. -/
structure WordsMeta where
  name : List Char
  uuid : Nat
  terms : Option (List Char)
  definition : Option (List Char)
  created_at : Nat
  last_modified : Nat
  folder : Option (List Char)
  progress : Option Nat
  shuffle_map : Option (List (Nat × Nat))
deriving DecidableEq

/-- `WordsIndex` of `model.rs`: the ordered collection of list metadata.
A list's user-facing ID is its 1-based position. -/
structure WordsIndex where
  lists : List WordsMeta
deriving DecidableEq

/-- The two error shapes `WordsIndex::get`/`WordsIndex::remove` can report. -/
inductive IndexErr
  | idUnderflow
  | notFound
deriving DecidableEq

/-- `WordsIndex::get`: `id.checked_sub(1)` fails on `id == 0`
(`IdUnderflow`); then `Vec::get` fails when the 0-based position is out of
range (`NotFound`). -/
def WordsIndex.get (idx : WordsIndex) (id : Nat) : Except IndexErr WordsMeta :=
  match id with
  | 0 => .error .idUnderflow
  | n + 1 =>
    match idx.lists.get? n with
    | some m => .ok m
    | none => .error .notFound

/-- `Vec::remove` at a 0-based position: keep the entries before it, drop it,
keep the entries after it. -/
def eraseAt (l : List WordsMeta) (n : Nat) : List WordsMeta :=
  l.take n ++ l.drop (n + 1)

/-- `WordsIndex::remove`: first the explicit `id > self.lists.len()` check
(`NotFound`), then `id.checked_sub(1)` (`IdUnderflow` on `id == 0`), then
`Vec::remove(id - 1)` which returns the removed element.  The inner `none`
branch is unreachable under the length guard (in Rust, `Vec::remove` would
panic there). -/
def WordsIndex.remove (idx : WordsIndex) (id : Nat) :
    Except IndexErr (WordsMeta × WordsIndex) :=
  if decide (idx.lists.length < id) then .error .notFound
  else
    match id with
    | 0 => .error .idUnderflow
    | n + 1 =>
      match idx.lists.get? n with
      | some m => .ok (m, ⟨eraseAt idx.lists n⟩)
      | none => .error .notFound

/-- `str::split` on a set of separator characters: all pieces, including
empty ones (a string with no separator yields one piece). -/
def splitAll (isSep : Char → Bool) : List Char → List (List Char)
  | [] => [[]]
  | c :: t =>
    if isSep c then [] :: splitAll isSep t
    else
      match splitAll isSep t with
      | [] => [[c]]
      | h :: r => (c :: h) :: r

/-- `str::split_terminator`: like `split`, but a final empty piece is
dropped (so the empty string yields no pieces at all). -/
def splitTerminator (isSep : Char → Bool) (l : List Char) : List (List Char) :=
  let ps := splitAll isSep l
  match ps.getLast? with
  | some [] => ps.dropLast
  | _ => ps

/-- The key/value separators of the import format: tab or `'='`. -/
def isKVSep (c : Char) : Bool :=
  c == '\t' || c == '='

/-- The value separators of the import format: `','` or `'/'`. -/
def isValSep (c : Char) : Bool :=
  c == ',' || c == '/'

/-- One line of the import format: the trimmed key before the first
tab/equals, and the trimmed values of the piece between the first and second
separator, split on `','`/`'/'` with `split_terminator`.  `none` when the
line has no separator (`split.next()` returns nothing after the key). -/
def parseLine (line : List Char) : Option (List Char × List (List Char)) :=
  match splitAll isKVSep line with
  | [] => none
  | [_] => none
  | key :: vals :: _ =>
    some (rustTrim key, (splitTerminator isValSep vals).map rustTrim)

/-- `HashMap::entry(key).or_insert_with(Vec::new).append(values)`: append the
new values to the key's accumulated list, inserting the key if absent.
(Rust's `HashMap` has no meaningful order; the model keeps first-insertion
order, which is irrelevant to the per-entry properties proved here.) -/
def upsert (m : List (List Char × List (List Char))) (k : List Char)
    (vs : List (List Char)) : List (List Char × List (List Char)) :=
  match m with
  | [] => [(k, vs)]
  | (k', vs') :: t =>
    if k' == k then (k', vs' ++ vs) :: t else (k', vs') :: upsert t k vs

/-- The line loop of `PrimitiveWordsList::try_from`: parse each line,
reporting the 1-based number of the first malformed line. -/
def parseAllLines :
    List (List Char) → Nat → List (List Char × List (List Char)) →
      Except Nat (List (List Char × List (List Char)))
  | [], _, acc => .ok acc
  | line :: rest, lineNo, acc =>
    match parseLine line with
    | none => .error (lineNo + 1)
    | some (k, vs) => parseAllLines rest (lineNo + 1) (upsert acc k vs)

/-- `impl From<PrimitiveWordsList> for WordsList`: each parsed pair becomes a
`WordsEntry` with the key as single term, direction `TD`, counter `0`. -/
def primitiveToEntry (kv : List Char × List (List Char)) : WordsEntry :=
  ⟨[kv.1], kv.2, .TD, 0⟩

/-- `PrimitiveWordsList::try_from` followed by `WordsList::from`: the word
list produced by a successful import of raw text (lines split with
`split_terminator('\n')`). -/
def importParse (raw : List Char) : Except Nat (List WordsEntry) :=
  (parseAllLines (splitTerminator (fun c => c == '\n') raw) 0 []).map
    (List.map primitiveToEntry)

/-- Ordering of word entries by their persisted correct-answer counter, the
comparator of the `Ctrl-Q` sort in `write_and_check`. -/
def countLE (a b : WordsEntry) : Prop :=
  a.times_answered_correctly ≤ b.times_answered_correctly

instance : DecidableRel countLE := fun a b =>
  Nat.decLe a.times_answered_correctly b.times_answered_correctly

instance : IsTotal WordsEntry countLE :=
  ⟨fun a b => Nat.le_total a.times_answered_correctly b.times_answered_correctly⟩

instance : IsTrans WordsEntry countLE :=
  ⟨fun _ _ _ hab hbc => Nat.le_trans hab hbc⟩

/-- `list.0.sort_unstable_by(|x, y| x.times_answered_correctly.cmp(&y.…))`:
sort the word list in ascending counter order.  (Rust's sort is unstable, so
the relative order of equal counters is unspecified there; the model commits
to a stable sort, which satisfies the same sortedness/permutation
contract.) -/
def sortByCount (l : List WordsEntry) : List WordsEntry :=
  l.insertionSort countLE

/-- The `Ctrl-Q` cancellation branch of `write_and_check` combined with the
persistence in `try_list`: the word list is sorted by counter and written
back, and the metadata receives the frontier and the session's shuffle map. -/
def cancelQuit (list : List WordsEntry) (n : Nat) (smap : List (Nat × Nat))
    (meta : WordsMeta) : List WordsEntry × WordsMeta :=
  (sortByCount list, { meta with progress := some n, shuffle_map := some smap })

/-- The mastery threshold `R` (`total_progress` in `try_tui`). -/
def totalProgress : Nat := 3

/-- The rotation window size `W` (the literal `10` in `try_tui`). -/
def windowSize : Nat := 10

/-- The mutable state of the `try_tui` session loop: the frontier `n`, the
FIFO rotation of `(index, cloned entry, local progress)` triples, and the
word list (whose counters the loop mutates). -/
structure SchedState where
  n : Nat
  rotation : List (Nat × WordsEntry × Nat)
  words : List WordsEntry
deriving DecidableEq

/-- `list.0[index].times_answered_correctly += 1`: bump the counter of the
word at a 0-based position (out of range: unchanged; unreachable in the
verified runs). -/
def bumpAt : List WordsEntry → Nat → List WordsEntry
  | [], _ => []
  | e :: t, 0 => { e with times_answered_correctly := e.times_answered_correctly + 1 } :: t
  | e :: t, i + 1 => e :: bumpAt t i

/-- One iteration of the `try_tui` loop body after the judgement `correct`
has been obtained: pop the front of the rotation; on a correct answer bump
the word's counter and its local progress, retiring it at progress
`totalProgress` (advancing `n`, and admitting the word at shuffled position
`n + rot - 1` when `n <= total - rot`); otherwise requeue at the back.
`perm` is the function `x ↦ *shuffle_map.get(&x).unwrap_or(&x)`.  The code
reads the admitted entry with `list.0.get(index).unwrap()` after the counter
bump; the model uses `getD` with a default that is never hit in bounds. -/
def step (total : Nat) (perm : Nat → Nat) (s : SchedState) (correct : Bool) : SchedState :=
  match s.rotation with
  | [] => s
  | (index, front, progress) :: rest =>
    if correct then
      let words := bumpAt s.words index
      let progress := progress + 1
      if progress = totalProgress then
        let n := s.n + 1
        let rot := rest.length
        if n ≤ total - rot then
          let next := n + rot - 1
          let index := perm next
          { n := n, words := words,
            rotation := rest ++ [(index, words.getD index default, 0)] }
        else
          { n := n, words := words, rotation := rest }
      else
        { n := s.n, words := words, rotation := rest ++ [(index, front, progress)] }
    else
      { n := s.n, words := s.words, rotation := rest ++ [(index, front, progress)] }

/-- One guarded iteration: the loop condition `n < total_words` is checked
before the body runs; `f t` is the judgement of the answer given at step
`t`. -/
def stepG (total : Nat) (perm : Nat → Nat) (f : Nat → Bool) (t : Nat)
    (s : SchedState) : SchedState :=
  if s.n < total then step total perm s (f t) else s

/-- Run the guarded loop for `k` iterations starting at step index `t`. -/
def runFrom (total : Nat) (perm : Nat → Nat) (f : Nat → Bool) :
    Nat → Nat → SchedState → SchedState
  | _, 0, s => s
  | t, k + 1, s => runFrom total perm f (t + 1) k (stepG total perm f t s)

/-- The initial rotation of `try_tui`: `(0..10)` filtered through the word
list — position `x` contributes `(index, clone, 0)` with
`index = perm x` whenever `list.0.get(index)` is `Some`. -/
def initRotation (perm : Nat → Nat) (words : List WordsEntry) :
    List (Nat × WordsEntry × Nat) :=
  (List.range windowSize).filterMap fun x =>
    let index := perm x
    (words.get? index).map fun e => (index, e, 0)

/-- The permutation actually used by `try_tui`: the local `shuffle_map`
starts as an empty `HashMap` and is replaced by the freshly generated map
only when `shuffle` is set (`Option::insert` also overwrites
`meta.shuffle_map`; the persisted map is never read).  `fresh` abstracts the
randomly generated map. -/
def sessionPerm (shuffle : Bool) (fresh : Nat → Option Nat) : Nat → Nat :=
  if shuffle then fun i => (fresh i).getD i else fun i => i

/-- The initial state of the `try_tui` session loop:
`n = meta.progress.unwrap_or(0)` and the rotation filled from positions
`0..10` (`try_list` clears `progress` first when `reset` is set). -/
def initState (meta : WordsMeta) (shuffle : Bool) (fresh : Nat → Option Nat)
    (words : List WordsEntry) : SchedState :=
  { n := meta.progress.getD 0,
    rotation := initRotation (sessionPerm shuffle fresh) words,
    words := words }

/-- C6 — Answer judge empty-list rule: for every method and every input
string, `check_word` on an empty acceptable list returns `false`, including
for empty input. -/
theorem answer_judge_empty_list (m : TryMethod) (input : List Char) :
    check_word m input [] = false :=
  rfl

/-- C7 — Direction merge algebra: `Auto` is a two-sided identity, `Both` is
absorbing on either side, `TD ⊕ DT = DT` in either order, `TD ⊕ TD = TD`,
`DT ⊕ DT = DT`. -/
theorem direction_merge_algebra (e : WordsDirection) :
    WordsDirection.merge .Auto e = e ∧ WordsDirection.merge e .Auto = e ∧
    WordsDirection.merge e .Both = .Both ∧ WordsDirection.merge .Both e = .Both ∧
    WordsDirection.merge .TD .DT = .DT ∧ WordsDirection.merge .DT .TD = .DT ∧
    WordsDirection.merge .TD .TD = .TD ∧ WordsDirection.merge .DT .DT = .DT := by
  cases e <;> exact ⟨rfl, rfl, rfl, rfl, rfl, rfl, rfl, rfl⟩

/-- C5 counterexample — the claim's "every parenthesized substring removed"
reading disagrees with the code: on the candidate `"a (b) c (d) e"` the
greedy regex `\(.*\)` deletes the whole span `"(b) c (d)"` (leaving
`"a  e"`), not each group separately (which would leave `"a  c  e"`), so the
input `"a  c  e"` is rejected by `check_word` although the claimed rule
accepts it. -/
theorem answer_judge_match_rule_cex :
    check_word .write "a  c  e".toList ["a (b) c (d) e".toList] = false ∧
    specCheckWrite "a  c  e".toList ["a (b) c (d) e".toList] = true := by
  exact ⟨by decide, by decide⟩

/-- C5 amended — Answer judge match rule with the code's paren deletion: for
a non-empty acceptable list, `Write` accepts iff the trimmed input
ASCII-case-insensitively equals, for some candidate or for the whole list
joined with `", "`: the trimmed candidate, or the candidate with the greedy
regex `\(.*\)` deleted and re-trimmed, or the candidate with all `'('`,
`')'`, `' '` characters removed and re-trimmed; `Mpc` accepts iff the raw
input exactly equals some candidate or the joined list. -/
theorem answer_judge_match_rule_amended (input : List Char)
    (check : List (List Char)) (hne : check ≠ []) :
    (check_word .write input check = true ↔
      ((∃ c ∈ check,
          eqIgnoreAsciiCase (rustTrim input) (rustTrim c) = true ∨
          eqIgnoreAsciiCase (rustTrim input) (rustTrim (stripParens (rustTrim c))) = true ∨
          eqIgnoreAsciiCase (rustTrim input) (rustTrim (removeParenSpace (rustTrim c))) = true) ∨
        (eqIgnoreAsciiCase (rustTrim input) (rustTrim (joinComma check)) = true ∨
          eqIgnoreAsciiCase (rustTrim input)
            (rustTrim (stripParens (rustTrim (joinComma check)))) = true ∨
          eqIgnoreAsciiCase (rustTrim input)
            (rustTrim (removeParenSpace (rustTrim (joinComma check)))) = true))) ∧
    (check_word .mpc input check = true ↔
      ((∃ c ∈ check, input = c) ∨ input = joinComma check)) := by
  have hE : check.isEmpty = false := by
    cases check with
    | nil => exact absurd rfl hne
    | cons a t => rfl
  constructor
  · simp [check_word, checkWordAux, writeMatches, hE, List.any_eq_true, or_assoc]
  · simp [check_word, checkWordAux, hE, List.any_eq_true, beq_iff_eq]

/-- Concrete instance of `answer_judge_match_rule_amended`. -/
theorem answer_judge_match_rule_amended_witness :
    check_word .write "foo".toList ["foo".toList] = true :=
  (answer_judge_match_rule_amended "foo".toList ["foo".toList] (by decide)).1.mpr
    (Or.inl ⟨"foo".toList, by decide, Or.inl (by decide)⟩)

/-- `eraseAt` on a `cons`, at a successor position. -/
theorem eraseAt_cons_succ (a : WordsMeta) (t : List WordsMeta) (n : Nat) :
    eraseAt (a :: t) (n + 1) = a :: eraseAt t n := by
  simp [eraseAt]

/-- Positions before the erased one are untouched. -/
theorem eraseAt_get_lt :
    ∀ (l : List WordsMeta) (n k : Nat), k < n → (eraseAt l n).get? k = l.get? k := by
  intro l
  induction l with
  | nil => intro n k _; simp [eraseAt]
  | cons a t ih =>
    intro n k hk
    cases n with
    | zero => omega
    | succ n =>
      cases k with
      | zero => simp [eraseAt_cons_succ]
      | succ k =>
        rw [eraseAt_cons_succ]
        simpa using ih n k (by omega)

/-- Positions at or after the erased one shift down by one. -/
theorem eraseAt_get_ge :
    ∀ (l : List WordsMeta) (n k : Nat), n < l.length → n ≤ k →
      (eraseAt l n).get? k = l.get? (k + 1) := by
  intro l
  induction l with
  | nil => intro n k h _; simp at h
  | cons a t ih =>
    intro n k hn hk
    cases n with
    | zero =>
      simp only [eraseAt, List.take_zero, List.drop_succ_cons, List.drop_zero, List.nil_append]
      rfl
    | succ n =>
      rw [eraseAt_cons_succ]
      cases k with
      | zero => omega
      | succ k =>
        have := ih n k (by simpa using hn) (by omega)
        simpa using this

/-- C8 — Index get/remove contract: `get` and `remove` fail with
`IdUnderflow` exactly on `id = 0`, with `NotFound` exactly when `id` exceeds
the index length; a successful `get` returns the `id`-th (1-based) entry; a
successful `remove` returns that entry, keeps the entries before it at their
IDs, and shifts the ID of every later entry down by one (0-based: position
`k` of the new index is position `k + 1` of the old one for `k ≥ id - 1`). -/
theorem index_get_remove_contract (idx : WordsIndex) (id : Nat) :
    (idx.get id = .error .idUnderflow ↔ id = 0) ∧
    (idx.get id = .error .notFound ↔ idx.lists.length < id) ∧
    (∀ m, idx.get id = .ok m ↔ 1 ≤ id ∧ idx.lists.get? (id - 1) = some m) ∧
    (idx.remove id = .error .idUnderflow ↔ id = 0) ∧
    (idx.remove id = .error .notFound ↔ idx.lists.length < id) ∧
    (∀ m idx', idx.remove id = .ok (m, idx') →
      idx.lists.get? (id - 1) = some m ∧
      (∀ k, k < id - 1 → idx'.lists.get? k = idx.lists.get? k) ∧
      (∀ k, id ≤ k → idx'.lists.get? (k - 1) = idx.lists.get? k)) := by
  cases id with
  | zero =>
    refine ⟨by simp [WordsIndex.get], by simp [WordsIndex.get], ?_, ?_, ?_, ?_⟩
    · intro m
      simp [WordsIndex.get]
    · simp [WordsIndex.remove]
    · simp [WordsIndex.remove]
    · intro m idx' h
      simp [WordsIndex.remove] at h
  | succ n =>
    cases hg : idx.lists.get? n with
    | none =>
      have hlen : idx.lists.length ≤ n := List.get?_eq_none.mp hg
      have hget : idx.get (n + 1) = .error .notFound := by
        simp only [WordsIndex.get]
        rw [hg]
      have hrem : idx.remove (n + 1) = .error .notFound := by
        simp only [WordsIndex.remove]
        rw [if_pos (by simp only [decide_eq_true_eq]; omega)]
      refine ⟨?_, ?_, ?_, ?_, ?_, ?_⟩
      · rw [hget]
        simp
      · rw [hget]
        simp
        omega
      · intro m
        rw [hget]
        have hg2 : idx.lists[n]? = none := by
          rw [← List.get?_eq_getElem?]
          exact hg
        simp [hg2]
      · rw [hrem]
        simp
      · rw [hrem]
        simp
        omega
      · intro m idx' h
        rw [hrem] at h
        simp at h
    | some m0 =>
      have hn : n < idx.lists.length := (List.get?_eq_some.mp hg).1
      have hget : idx.get (n + 1) = .ok m0 := by
        simp only [WordsIndex.get]
        rw [hg]
      have hrem : idx.remove (n + 1) = .ok (m0, ⟨eraseAt idx.lists n⟩) := by
        simp only [WordsIndex.remove]
        rw [if_neg (by simp only [decide_eq_true_eq]; omega)]
        rw [hg]
      refine ⟨?_, ?_, ?_, ?_, ?_, ?_⟩
      · rw [hget]
        simp
      · rw [hget]
        simp
        omega
      · intro m
        rw [hget]
        simp only [Nat.add_sub_cancel, hg]
        constructor
        · intro h
          simp at h
          simp [h]
        · intro h
          have := h.2
          simp at this
          simp [this]
      · rw [hrem]
        simp
      · rw [hrem]
        simp
        omega
      · intro m idx' h
        rw [hrem] at h
        simp only [Except.ok.injEq, Prod.mk.injEq] at h
        obtain ⟨hm, hidx⟩ := h
        subst hm
        subst hidx
        simp only [Nat.add_sub_cancel]
        refine ⟨hg, ?_, ?_⟩
        · intro k hk
          exact eraseAt_get_lt idx.lists n k (by omega)
        · intro k hk
          have hk1 : k = (k - 1) + 1 := by omega
          rw [eraseAt_get_ge idx.lists n (k - 1) hn (by omega), ← hk1]

/-- A sample metadata record (for concrete instances). -/
def metaA : WordsMeta :=
  ⟨"alpha".toList, 1, none, none, 0, 0, none, none, none⟩

/-- A sample metadata record (for concrete instances). -/
def metaB : WordsMeta :=
  ⟨"beta".toList, 2, none, none, 0, 0, none, none, none⟩

/-- A sample metadata record (for concrete instances). -/
def metaC : WordsMeta :=
  ⟨"gamma".toList, 3, none, none, 0, 0, none, none, none⟩

/-- Concrete instance of `index_get_remove_contract`: removing ID 2 from a
3-list index moves the entry that was ID 3 to ID 2, and `get 0`
underflows. -/
theorem index_get_remove_contract_witness :
    WordsIndex.get ⟨[metaA, metaB, metaC]⟩ 0 = .error .idUnderflow ∧
    (⟨[metaA, metaC]⟩ : WordsIndex).lists.get? 1
      = (⟨[metaA, metaB, metaC]⟩ : WordsIndex).lists.get? 2 := by
  have h0 := (index_get_remove_contract ⟨[metaA, metaB, metaC]⟩ 0).1.mpr rfl
  have h2 := (index_get_remove_contract ⟨[metaA, metaB, metaC]⟩ 2).2.2.2.2.2
    metaB ⟨[metaA, metaC]⟩ (by rfl)
  exact ⟨h0, h2.2.2 2 (by omega)⟩

/-- The entry produced by importing the line `"foo\t"`. -/
def importCexEntry : WordsEntry :=
  ⟨["foo".toList], [], .TD, 0⟩

/-- C9 counterexample — `importList` accepts the raw text `"foo\t"` (the line
has a separator, so parsing succeeds), but the resulting single entry has an
empty `definitions` list: `split_terminator` on the empty value part yields
no values. -/
theorem import_entry_validity_cex :
    importParse "foo\t".toList = .ok [importCexEntry] ∧
    importCexEntry.definitions = [] := by
  exact ⟨by rfl, rfl⟩

/-- C9 amended — every entry produced by a successful import has at least
one term (exactly one: the line's key); the definitions list, however, can
be empty (a line whose value part is empty parses successfully, see the C9
counterexample). -/
theorem import_entry_validity_amended (raw : List Char) (l : List WordsEntry)
    (h : importParse raw = .ok l) :
    ∀ e ∈ l, e.terms.length = 1 := by
  intro e he
  unfold importParse at h
  cases hp : parseAllLines (splitTerminator (fun c => c == '\n') raw) 0 [] with
  | error k =>
    rw [hp] at h
    simp [Except.map] at h
  | ok m =>
    rw [hp] at h
    simp only [Except.map, Except.ok.injEq] at h
    subst h
    obtain ⟨kv, _, hkv⟩ := List.mem_map.mp he
    rw [← hkv]
    rfl

/-- Concrete instance of `import_entry_validity_amended`. -/
theorem import_entry_validity_amended_witness :
    (⟨["a".toList], ["b".toList], .TD, 0⟩ : WordsEntry).terms.length = 1 :=
  import_entry_validity_amended "a\tb".toList
    [⟨["a".toList], ["b".toList], .TD, 0⟩] (by rfl)
    ⟨["a".toList], ["b".toList], .TD, 0⟩ (List.mem_singleton.mpr rfl)

/-- A word entry with a high counter (for concrete instances). -/
def entryHi : WordsEntry :=
  ⟨["hi".toList], ["x".toList], .TD, 5⟩

/-- A word entry with counter `0` (for concrete instances). -/
def entryLo : WordsEntry :=
  ⟨["lo".toList], ["y".toList], .TD, 0⟩

/-- C10 — Cancellation reorders the list: the `Ctrl-Q` path sorts the whole
word list in ascending `times_answered_correctly` order before the session
returns, this sorted list is what `try_list` persists, the entries are
exactly those present at cancellation time (a permutation), the metadata
receives the frontier and shuffle map — and on a concrete list whose
counters are out of order the persisted order differs from the pre-session
order. -/
theorem session_cancel_reorders :
    (∀ (list : List WordsEntry) (n : Nat) (smap : List (Nat × Nat)) (meta : WordsMeta),
      List.Sorted countLE (cancelQuit list n smap meta).1 ∧
      (cancelQuit list n smap meta).1.Perm list ∧
      (cancelQuit list n smap meta).2
        = { meta with progress := some n, shuffle_map := some smap }) ∧
    (cancelQuit [entryHi, entryLo] 0 [] metaA).1 = [entryLo, entryHi] := by
  constructor
  · intro list n smap meta
    exact ⟨List.sorted_insertionSort countLE list,
      List.perm_insertionSort countLE list, rfl⟩
  · decide

/-- Bumping position `i` increments exactly that entry's counter. -/
theorem bumpAt_getD_self :
    ∀ (l : List WordsEntry) (i : Nat), i < l.length →
      ((bumpAt l i).getD i default).times_answered_correctly
        = (l.getD i default).times_answered_correctly + 1 := by
  intro l
  induction l with
  | nil => intro i hi; simp at hi
  | cons e t ih =>
    intro i hi
    cases i with
    | zero => rfl
    | succ i => exact ih i (by simpa using hi)

/-- Bumping position `i` leaves every other position unchanged. -/
theorem bumpAt_getD_other :
    ∀ (l : List WordsEntry) (i j : Nat), j ≠ i →
      (bumpAt l i).getD j default = l.getD j default := by
  intro l
  induction l with
  | nil => intro i j _; cases i <;> rfl
  | cons e t ih =>
    intro i j hj
    cases i with
    | zero =>
      cases j with
      | zero => exact absurd rfl hj
      | succ j => rfl
    | succ i =>
      cases j with
      | zero => rfl
      | succ j => exact ih i j (by omega)

/-- The words component of a correct step is always the bumped list. -/
theorem step_true_words (total : Nat) (perm : Nat → Nat) (s : SchedState)
    (idx : Nat) (front : WordsEntry) (p : Nat) (rest : List (Nat × WordsEntry × Nat))
    (hrot : s.rotation = (idx, front, p) :: rest) :
    (step total perm s true).words = bumpAt s.words idx := by
  simp only [step, hrot]
  by_cases h3 : p + 1 = totalProgress
  · by_cases hadm : s.n + 1 ≤ total - rest.length
    · simp [h3, hadm]
    · simp [h3, hadm]
  · simp [h3]

/-- C1 — Scheduler step update: on a correct answer the popped word's
counter increases by exactly 1 (all other words unchanged) and its local
progress increases by 1; at progress `R = 3` the word is retired — the
frontier advances and the popped entry is not requeued (at most a fresh
progress-0 entry is admitted at the back); below `R` the entry is requeued
at the back with progress `p + 1`.  On an incorrect answer the state changes
only by requeuing the popped entry unchanged.  No step ever requeues the
popped entry with smaller progress. -/
theorem scheduler_step_update (total : Nat) (perm : Nat → Nat) (s : SchedState)
    (idx : Nat) (front : WordsEntry) (p : Nat) (rest : List (Nat × WordsEntry × Nat))
    (hrot : s.rotation = (idx, front, p) :: rest) (hidx : idx < s.words.length) :
    (((step total perm s true).words.getD idx default).times_answered_correctly
        = ((s.words.getD idx default).times_answered_correctly) + 1) ∧
    (∀ j, j ≠ idx → (step total perm s true).words.getD j default
        = s.words.getD j default) ∧
    (p + 1 = totalProgress →
      (step total perm s true).n = s.n + 1 ∧
      ((step total perm s true).rotation = rest ∨
        ∃ a, (step total perm s true).rotation = rest ++ [a] ∧ a.2.2 = 0)) ∧
    (p + 1 ≠ totalProgress →
      (step total perm s true).n = s.n ∧
      (step total perm s true).rotation = rest ++ [(idx, front, p + 1)]) ∧
    (step total perm s false = { s with rotation := rest ++ [(idx, front, p)] }) ∧
    (∀ (c : Bool) (x : Nat × WordsEntry × Nat), x ∈ (step total perm s c).rotation →
      x ∈ rest ∨ p ≤ x.2.2 ∨ x.2.2 = 0) := by
  have hw := step_true_words total perm s idx front p rest hrot
  have hsF : step total perm s false = { s with rotation := rest ++ [(idx, front, p)] } := by
    simp [step, hrot]
  refine ⟨?_, ?_, ?_, ?_, hsF, ?_⟩
  · rw [hw]
    exact bumpAt_getD_self s.words idx hidx
  · intro j hj
    rw [hw]
    exact bumpAt_getD_other s.words idx j hj
  · intro h3
    constructor
    · by_cases hadm : s.n + 1 ≤ total - rest.length
      · simp [step, hrot, h3, hadm]
      · simp [step, hrot, h3, hadm]
    · by_cases hadm : s.n + 1 ≤ total - rest.length
      · refine Or.inr ⟨(perm (s.n + 1 + rest.length - 1),
          (bumpAt s.words idx).getD (perm (s.n + 1 + rest.length - 1)) default, 0), ?_, rfl⟩
        simp [step, hrot, h3, hadm]
      · exact Or.inl (by simp [step, hrot, h3, hadm])
  · intro h3
    constructor
    · simp [step, hrot, h3]
    · simp [step, hrot, h3]
  · intro c x hx
    cases c with
    | false =>
      rw [hsF] at hx
      rcases List.mem_append.mp hx with h | h
      · exact Or.inl h
      · right; left
        rw [List.mem_singleton.mp h]
    | true =>
      by_cases h3 : p + 1 = totalProgress
      · by_cases hadm : s.n + 1 ≤ total - rest.length
        · simp [step, hrot, h3, hadm, List.mem_append] at hx
          rcases hx with h | h
          · exact Or.inl h
          · right; right
            rw [h]
        · simp [step, hrot, h3, hadm] at hx
          exact Or.inl hx
      · simp [step, hrot, h3, List.mem_append] at hx
        rcases hx with h | h
        · exact Or.inl h
        · right; left
          rw [h]
          simp

/-- A sample single word (for concrete instances). -/
def wordOne : WordsEntry :=
  ⟨["w".toList], ["v".toList], .TD, 0⟩

/-- Concrete instance of `scheduler_step_update`. -/
theorem scheduler_step_update_witness :
    ((step 1 (fun i => i) ⟨0, [(0, wordOne, 0)], [wordOne]⟩ true).words.getD 0
        default).times_answered_correctly
      = (((⟨0, [(0, wordOne, 0)], [wordOne]⟩ : SchedState).words.getD 0
        default).times_answered_correctly) + 1 :=
  (scheduler_step_update 1 (fun i => i) ⟨0, [(0, wordOne, 0)], [wordOne]⟩ 0 wordOne 0 []
    rfl (by decide)).1

/-- `HashMap` lookup with identity fallback
(`*map.get(&i).unwrap_or(&i)`), on the association-list model. -/
def lookupMap (m : List (Nat × Nat)) (i : Nat) : Nat :=
  ((m.find? fun q => q.1 == i).map Prod.snd).getD i

/-- Follows the spec's words for claim C4, in the no-shuffle case: the
frontier comes from `progress`; the permutation is the persisted
`shuffle_map` when resuming finds one (identity otherwise); and the rotation
is populated with up to `W` words starting at position `frontier` under the
permutation, each with local progress 0. -/
def specInitState (meta : WordsMeta) (words : List WordsEntry) : SchedState :=
  let n := meta.progress.getD 0
  let p :=
    match meta.shuffle_map with
    | some m => lookupMap m
    | none => fun i => i
  { n := n,
    rotation := (List.range windowSize).filterMap fun x =>
      (words.get? (p (n + x))).map fun e => (p (n + x), e, 0),
    words := words }

/-- A two-word list for concrete instances. -/
def entryA : WordsEntry :=
  ⟨["a".toList], ["b".toList], .TD, 0⟩

/-- A two-word list for concrete instances. -/
def entryB : WordsEntry :=
  ⟨["c".toList], ["d".toList], .TD, 0⟩

/-- Metadata resuming at `progress = 1` (for the C4 counterexample). -/
def metaResume : WordsMeta :=
  ⟨"resume".toList, 4, none, none, 0, 0, none, some 1, none⟩

/-- C4 counterexample — the code's initial rotation ignores the frontier: on
a two-word list resumed at `progress = 1` (no shuffle), `try_tui` fills the
rotation from position 0 and gets both words, while the claimed
initialization ("up to W words starting at position frontier") would contain
only the word at position 1.  (The persisted `shuffle_map` is likewise never
read back; see `scheduler_init_amended`.) -/
theorem scheduler_init_cex :
    initState metaResume false (fun _ => none) [entryA, entryB]
      ≠ specInitState metaResume [entryA, entryB] := by
  decide

/-- C4 amended — Scheduler initial state: the frontier is
`meta.progress.unwrap_or(0)` (`try_list` clears `progress` first on reset);
the words are taken over unchanged; the rotation is populated from positions
`0..W` (not from the frontier) under the session permutation — identity when
shuffle is off, the freshly generated map when shuffle is on — each entry at
local progress 0; and the persisted `meta.shuffle_map` never influences the
initial state (it is only overwritten, never read). -/
theorem scheduler_init_amended (meta : WordsMeta) (shuffle : Bool)
    (fresh : Nat → Option Nat) (words : List WordsEntry) :
    (initState meta shuffle fresh words).n = meta.progress.getD 0 ∧
    (initState meta shuffle fresh words).words = words ∧
    (initState meta shuffle fresh words).rotation
      = (List.range windowSize).filterMap (fun x =>
          (words.get? (sessionPerm shuffle fresh x)).map
            (fun e => (sessionPerm shuffle fresh x, e, 0))) ∧
    (∀ x ∈ (initState meta shuffle fresh words).rotation, x.2.2 = 0) ∧
    (∀ sm, initState { meta with shuffle_map := sm } shuffle fresh words
        = initState meta shuffle fresh words) ∧
    (initState meta false fresh words).rotation
      = (List.range windowSize).filterMap (fun x =>
          (words.get? x).map (fun e => (x, e, 0))) := by
  refine ⟨rfl, rfl, rfl, ?_, fun sm => rfl, rfl⟩
  intro x hx
  simp only [initState, initRotation, List.mem_filterMap] at hx
  obtain ⟨i, _, hi⟩ := hx
  rcases ho : words.get? (sessionPerm shuffle fresh i) with _ | e
  · rw [ho] at hi
    exact Option.noConfusion hi
  · rw [ho] at hi
    cases hi
    rfl

/-- Concrete instance of `scheduler_init_amended`. -/
theorem scheduler_init_amended_witness :
    ((0 : Nat), entryA, (0 : Nat)).2.2 = 0 :=
  (scheduler_init_amended metaA false (fun _ => none) [entryA]).2.2.2.1
    (0, entryA, 0) (by decide)

/-- C3 counterexample — the rotation-bound invariant fails in an ordinary
fresh session: on a two-word list with all answers correct, after the fifth
step (which retires word 0) the admission rule `n <= total - rot` with
`next = n + rot - 1` re-admits word 1 — already in the rotation — so the
queue holds 2 entries while `min(W, total_words - frontier) = min(10, 1) = 1`;
and on a one-word list the just-retired word itself is re-admitted after its
third correct answer. -/
theorem rotation_bound_cex :
    (runFrom 2 (fun i => i) (fun _ => true) 0 5
        (initState metaA false (fun _ => none) [entryA, entryB])).n = 1 ∧
    (runFrom 2 (fun i => i) (fun _ => true) 0 5
        (initState metaA false (fun _ => none) [entryA, entryB])).rotation.length = 2 ∧
    ¬((runFrom 2 (fun i => i) (fun _ => true) 0 5
        (initState metaA false (fun _ => none) [entryA, entryB])).rotation.length
      ≤ min windowSize
          (2 - (runFrom 2 (fun i => i) (fun _ => true) 0 5
            (initState metaA false (fun _ => none) [entryA, entryB])).n)) ∧
    (runFrom 1 (fun i => i) (fun _ => true) 0 3
        (initState metaA false (fun _ => none) [entryA])).n = 1 ∧
    ((runFrom 1 (fun i => i) (fun _ => true) 0 3
        (initState metaA false (fun _ => none) [entryA])).rotation.map
      (fun x => x.1)) = [0] := by
  refine ⟨by decide, by decide, by decide, by decide, by decide⟩

/-- A step never grows the rotation: one entry is popped and at most one is
pushed. -/
theorem step_length_le (total : Nat) (perm : Nat → Nat) (s : SchedState) (c : Bool) :
    (step total perm s c).rotation.length ≤ s.rotation.length := by
  rcases hrot : s.rotation with _ | ⟨⟨idx, front, p⟩, rest⟩
  · simp [step, hrot]
  · cases c with
    | false => simp [step, hrot]
    | true =>
      by_cases h3 : p + 1 = totalProgress
      · by_cases hadm : s.n + 1 ≤ total - rest.length
        · simp [step, hrot, h3, hadm]
        · simp [step, hrot, h3, hadm]
      · simp [step, hrot, h3]

/-- Running the loop never grows the rotation. -/
theorem runFrom_length_le (total : Nat) (perm : Nat → Nat) (f : Nat → Bool) :
    ∀ (k t : Nat) (s : SchedState),
      (runFrom total perm f t k s).rotation.length ≤ s.rotation.length := by
  intro k
  induction k with
  | zero => intro t s; exact Nat.le_refl _
  | succ k ih =>
    intro t s
    refine Nat.le_trans (ih (t + 1) (stepG total perm f t s)) ?_
    unfold stepG
    split
    · exact step_length_le total perm s (f t)
    · exact Nat.le_refl _

/-- The length of `filterMap` counts the positions where the function
returns `some`. -/
theorem length_filterMap_eq_countP {α β : Type} (g : α → Option β) :
    ∀ L : List α, (L.filterMap g).length = L.countP fun a => (g a).isSome := by
  intro L
  induction L with
  | nil => rfl
  | cons a t ih =>
    cases hg : g a with
    | none => simp [List.filterMap_cons, hg, List.countP_cons, ih]
    | some b => simp [List.filterMap_cons, hg, List.countP_cons, ih]

/-- Counting the elements of `range n` below `m`. -/
theorem countP_range_lt (m : Nat) :
    ∀ n : Nat, (List.range n).countP (fun x => decide (x < m)) = min n m := by
  intro n
  induction n with
  | zero => simp
  | succ n ih =>
    rw [List.range_succ, List.countP_append, ih]
    by_cases h : n < m
    · simp [h]
      omega
    · simp [h]
      omega

/-- Size of the initial rotation, for a permutation that maps positions
below `total` into range and fixes the rest: exactly
`min windowSize total`. -/
theorem initRotation_length (perm : Nat → Nat) (words : List WordsEntry)
    (hp1 : ∀ i, i < words.length → perm i < words.length)
    (hp2 : ∀ i, words.length ≤ i → perm i = i) :
    (initRotation perm words).length = min windowSize words.length := by
  rw [initRotation, length_filterMap_eq_countP]
  rw [List.countP_congr, countP_range_lt words.length]
  intro x _
  rcases hx : words.get? (perm x) with _ | e
  · have hge : words.length ≤ perm x := List.get?_eq_none.mp hx
    simp only [hx, Option.map_none, Option.isSome_none]
    by_cases h : x < words.length
    · exact absurd (hp1 x h) (by omega)
    · simp
      omega
  · have hlt : perm x < words.length := (List.get?_eq_some.mp hx).1
    simp only [hx, Option.map_some, Option.isSome_some]
    by_cases h : x < words.length
    · simp [h]
    · rw [hp2 x (by omega)] at hlt
      exact absurd hlt h

/-- C3 amended — Rotation bound: at every step of every session the rotation
holds at most `min(W, total_words)` entries (`W = 10`): the initial fill has
exactly `min(W, total_words)` entries and no step grows the queue.  The
claimed stronger bound `min(W, total_words - frontier)` fails, and retired
words can re-enter the rotation (see the C3 counterexample). -/
theorem rotation_bound_amended (meta : WordsMeta) (shuffle : Bool)
    (fresh : Nat → Option Nat) (words : List WordsEntry) (f : Nat → Bool) (k : Nat)
    (hp1 : ∀ i, i < words.length → sessionPerm shuffle fresh i < words.length)
    (hp2 : ∀ i, words.length ≤ i → sessionPerm shuffle fresh i = i) :
    (runFrom words.length (sessionPerm shuffle fresh) f 0 k
        (initState meta shuffle fresh words)).rotation.length
      ≤ min windowSize words.length := by
  refine Nat.le_trans (runFrom_length_le _ _ _ k 0 _) ?_
  rw [show (initState meta shuffle fresh words).rotation
      = initRotation (sessionPerm shuffle fresh) words from rfl]
  rw [initRotation_length (sessionPerm shuffle fresh) words hp1 hp2]

/-- Concrete instance of `rotation_bound_amended`. -/
theorem rotation_bound_amended_witness :
    (runFrom 1 (sessionPerm false (fun _ => none)) (fun _ => true) 0 2
        (initState metaA false (fun _ => none) [entryA])).rotation.length
      ≤ min windowSize 1 :=
  rotation_bound_amended metaA false (fun _ => none) [entryA] (fun _ => true) 2
    (fun _ h => h) (fun _ _ => rfl)

/-- The loop invariant of the session: the frontier never passes the total,
the rotation is non-empty while words remain, and every queued local
progress is below the mastery threshold. -/
def SchedInv (total : Nat) (s : SchedState) : Prop :=
  s.n ≤ total ∧ (s.n < total → s.rotation ≠ []) ∧
    ∀ x ∈ s.rotation, x.2.2 < totalProgress

/-- Termination measure: outstanding correct answers still needed, counting
`totalProgress` for each unretired word beyond the frontier and the residual
progress of each queued entry. -/
def phi (total : Nat) (s : SchedState) : Nat :=
  totalProgress * (total - s.n) +
    (s.rotation.map fun x => totalProgress - x.2.2).sum

/-- An incorrect step leaves the frontier unchanged. -/
theorem step_false_n (total : Nat) (perm : Nat → Nat) (s : SchedState) :
    (step total perm s false).n = s.n := by
  rcases hrot : s.rotation with _ | ⟨⟨idx, front, p⟩, rest⟩
  · simp [step, hrot]
  · simp [step, hrot]

/-- An incorrect step leaves the measure unchanged (the popped entry is
requeued as is). -/
theorem step_false_phi (total : Nat) (perm : Nat → Nat) (s : SchedState) :
    phi total (step total perm s false) = phi total s := by
  rcases hrot : s.rotation with _ | ⟨⟨idx, front, p⟩, rest⟩
  · simp [step, hrot]
  · simp [phi, step, hrot, List.map_append, List.sum_append]
    omega

/-- An incorrect step preserves the invariant. -/
theorem step_false_inv (total : Nat) (perm : Nat → Nat) (s : SchedState)
    (hInv : SchedInv total s) : SchedInv total (step total perm s false) := by
  obtain ⟨hn, hne, hp⟩ := hInv
  rcases hrot : s.rotation with _ | ⟨⟨idx, front, p⟩, rest⟩
  · rw [show step total perm s false = s from by simp [step, hrot]]
    exact ⟨hn, hne, hp⟩
  · have hstep : step total perm s false
        = { s with rotation := rest ++ [(idx, front, p)] } := by
      simp [step, hrot]
    rw [hstep]
    refine ⟨hn, fun _ => by simp, ?_⟩
    intro x hx
    rcases List.mem_append.mp hx with h | h
    · exact hp x (by rw [hrot]; exact List.mem_cons_of_mem _ h)
    · rw [List.mem_singleton.mp h]
      exact hp (idx, front, p) (by rw [hrot]; exact List.mem_cons_self _ _)

/-- A correct step strictly decreases the measure and preserves the
invariant. -/
theorem step_true_phi_inv (total : Nat) (perm : Nat → Nat) (s : SchedState)
    (hInv : SchedInv total s) (hlt : s.n < total) :
    phi total (step total perm s true) < phi total s ∧
      SchedInv total (step total perm s true) := by
  obtain ⟨hn, hne, hp⟩ := hInv
  rcases hrot : s.rotation with _ | ⟨⟨idx, front, p⟩, rest⟩
  · exact absurd hrot (hne hlt)
  · have hplt : p < totalProgress :=
      hp (idx, front, p) (by rw [hrot]; exact List.mem_cons_self _ _)
    have hrest : ∀ x ∈ rest, x.2.2 < totalProgress := fun x hx =>
      hp x (by rw [hrot]; exact List.mem_cons_of_mem _ hx)
    have hp3 : p < 3 := by simpa [totalProgress] using hplt
    by_cases h3 : p + 1 = totalProgress
    · have hp2 : p = 2 := by simp [totalProgress] at h3; omega
      by_cases hadm : s.n + 1 ≤ total - rest.length
      · have hstep : step total perm s true
            = { n := s.n + 1,
                rotation := rest ++ [(perm (s.n + 1 + rest.length - 1),
                  (bumpAt s.words idx).getD (perm (s.n + 1 + rest.length - 1)) default, 0)],
                words := bumpAt s.words idx } := by
          simp [step, hrot, h3, hadm]
        rw [hstep]
        constructor
        · simp [phi, totalProgress, hrot, hp2, List.map_append, List.sum_append]
          omega
        · refine ⟨hlt, fun _ => by simp, ?_⟩
          intro x hx
          rcases List.mem_append.mp hx with h | h
          · exact hrest x h
          · rw [List.mem_singleton.mp h]
            simp [totalProgress]
      · have hstep : step total perm s true
            = { n := s.n + 1, rotation := rest, words := bumpAt s.words idx } := by
          simp [step, hrot, h3, hadm]
        have hrne : rest ≠ [] := by
          intro hrnil
          rw [hrnil] at hadm
          simp at hadm
          omega
        rw [hstep]
        constructor
        · simp [phi, totalProgress, hrot, hp2]
          omega
        · exact ⟨hlt, fun _ => hrne, fun x hx => hrest x hx⟩
    · have hstep : step total perm s true
          = { n := s.n,
              rotation := rest ++ [(idx, front, p + 1)],
              words := bumpAt s.words idx } := by
        simp [step, hrot, h3]
      rw [hstep]
      constructor
      · simp only [phi, List.map_append, List.sum_append, List.map_cons, List.sum_cons,
          List.map_nil, List.sum_nil, hrot, totalProgress]
        simp
        have h3' : p + 1 ≠ 3 := by simpa [totalProgress] using h3
        omega
      · refine ⟨hn, fun _ => by simp, ?_⟩
        intro x hx
        rcases List.mem_append.mp hx with h | h
        · exact hrest x h
        · rw [List.mem_singleton.mp h]
          have h3' : p + 1 ≠ 3 := by simpa [totalProgress] using h3
          simp [totalProgress]
          omega

/-- One guarded iteration preserves the invariant. -/
theorem stepG_inv (total : Nat) (perm : Nat → Nat) (f : Nat → Bool) (t : Nat)
    (s : SchedState) (hInv : SchedInv total s) :
    SchedInv total (stepG total perm f t s) := by
  unfold stepG
  split
  · cases hf : f t with
    | false => exact step_false_inv total perm s hInv
    | true => exact (step_true_phi_inv total perm s hInv (by assumption)).2
  · exact hInv

/-- The invariant holds along the whole run. -/
theorem runFrom_inv (total : Nat) (perm : Nat → Nat) (f : Nat → Bool) :
    ∀ (k t : Nat) (s : SchedState), SchedInv total s →
      SchedInv total (runFrom total perm f t k s) := by
  intro k
  induction k with
  | zero => intro t s h; exact h
  | succ k ih =>
    intro t s h
    exact ih (t + 1) (stepG total perm f t s) (stepG_inv total perm f t s h)

/-- Splitting a run into two consecutive runs. -/
theorem runFrom_add (total : Nat) (perm : Nat → Nat) (f : Nat → Bool) :
    ∀ (a b t : Nat) (s : SchedState),
      runFrom total perm f t (a + b) s
        = runFrom total perm f (t + a) b (runFrom total perm f t a s) := by
  intro a
  induction a with
  | zero =>
    intro b t s
    rw [Nat.zero_add, Nat.add_zero]
    rfl
  | succ a ih =>
    intro b t s
    rw [show a + 1 + b = (a + b) + 1 from by omega]
    show runFrom total perm f (t + 1) (a + b) (stepG total perm f t s)
        = runFrom total perm f (t + (a + 1)) b (runFrom total perm f t (a + 1) s)
    rw [ih b (t + 1) (stepG total perm f t s)]
    rw [show t + 1 + a = t + (a + 1) from by omega]
    rfl

/-- Once the loop guard fails the run is stationary. -/
theorem runFrom_stable (total : Nat) (perm : Nat → Nat) (f : Nat → Bool)
    (s : SchedState) (h : ¬ s.n < total) :
    ∀ (m t : Nat), runFrom total perm f t m s = s := by
  intro m
  induction m with
  | zero => intro t; rfl
  | succ m ih =>
    intro t
    show runFrom total perm f (t + 1) m (stepG total perm f t s) = s
    rw [show stepG total perm f t s = s from by unfold stepG; rw [if_neg h]]
    exact ih (t + 1)

/-- A stretch of incorrect answers leaves frontier, measure and invariant
unchanged. -/
theorem runFrom_false_steps (total : Nat) (perm : Nat → Nat) (f : Nat → Bool) :
    ∀ (d t : Nat) (s : SchedState), (∀ i, i < d → f (t + i) = false) →
      SchedInv total s →
      (runFrom total perm f t d s).n = s.n ∧
      phi total (runFrom total perm f t d s) = phi total s ∧
      SchedInv total (runFrom total perm f t d s) := by
  intro d
  induction d with
  | zero => intro t s _ hInv; exact ⟨rfl, rfl, hInv⟩
  | succ d ih =>
    intro t s hf hInv
    have hf0 : f t = false := by
      have := hf 0 (by omega)
      simpa using this
    have hfs : ∀ i, i < d → f (t + 1 + i) = false := by
      intro i hi
      rw [show t + 1 + i = t + (i + 1) from by omega]
      exact hf (i + 1) (by omega)
    show _ ∧ _ ∧ _
    by_cases hg : s.n < total
    · have hsg : stepG total perm f t s = step total perm s false := by
        unfold stepG
        rw [if_pos hg, hf0]
      obtain ⟨h1, h2, h3⟩ := ih (t + 1) (step total perm s false) hfs
        (step_false_inv total perm s hInv)
      refine ⟨?_, ?_, ?_⟩
      · show (runFrom total perm f (t + 1) d (stepG total perm f t s)).n = s.n
        rw [hsg, h1, step_false_n]
      · show phi total (runFrom total perm f (t + 1) d (stepG total perm f t s)) = phi total s
        rw [hsg, h2, step_false_phi]
      · show SchedInv total (runFrom total perm f (t + 1) d (stepG total perm f t s))
        rw [hsg]
        exact h3
    · have hsg : stepG total perm f t s = s := by
        unfold stepG
        rw [if_neg hg]
      obtain ⟨h1, h2, h3⟩ := ih (t + 1) s hfs hInv
      refine ⟨?_, ?_, ?_⟩
      · show (runFrom total perm f (t + 1) d (stepG total perm f t s)).n = s.n
        rw [hsg, h1]
      · show phi total (runFrom total perm f (t + 1) d (stepG total perm f t s)) = phi total s
        rw [hsg, h2]
      · show SchedInv total (runFrom total perm f (t + 1) d (stepG total perm f t s))
        rw [hsg]
        exact h3

/-- Main induction for termination: with the invariant, measure at most `B`,
and infinitely many correct answers in the judgement stream, some finite run
reaches `n = total`. -/
theorem sched_terminates_aux (total : Nat) (perm : Nat → Nat) (f : Nat → Bool)
    (hfair : ∀ u, ∃ j, u ≤ j ∧ f j = true) :
    ∀ (B t : Nat) (s : SchedState), SchedInv total s → phi total s ≤ B →
      ∃ k, (runFrom total perm f t k s).n = total := by
  intro B
  induction B with
  | zero =>
    intro t s hInv hphi
    refine ⟨0, ?_⟩
    show s.n = total
    have h1 := hInv.1
    simp [phi, totalProgress] at hphi
    omega
  | succ B ih =>
    intro t s hInv hphi
    by_cases hdone : s.n = total
    · exact ⟨0, hdone⟩
    have hlt : s.n < total := Nat.lt_of_le_of_ne hInv.1 hdone
    have hex : ∃ d, f (t + d) = true := by
      obtain ⟨j, hj, hjt⟩ := hfair t
      exact ⟨j - t, by rw [show t + (j - t) = j from by omega]; exact hjt⟩
    have hd : f (t + Nat.find hex) = true := Nat.find_spec hex
    have hmin : ∀ i, i < Nat.find hex → f (t + i) = false := by
      intro i hi
      have hne := Nat.find_min hex hi
      cases hfi : f (t + i)
      · rfl
      · exact absurd hfi hne
    obtain ⟨hn1, hphi1, hInv1⟩ :=
      runFrom_false_steps total perm f (Nat.find hex) t s hmin hInv
    have hlt1 : (runFrom total perm f t (Nat.find hex) s).n < total := by
      rw [hn1]
      exact hlt
    obtain ⟨hphi2, hInv2⟩ :=
      step_true_phi_inv total perm (runFrom total perm f t (Nat.find hex) s) hInv1 hlt1
    have hsg : stepG total perm f (t + Nat.find hex) (runFrom total perm f t (Nat.find hex) s)
        = step total perm (runFrom total perm f t (Nat.find hex) s) true := by
      unfold stepG
      rw [if_pos hlt1, hd]
    have hphi3 : phi total (step total perm (runFrom total perm f t (Nat.find hex) s) true)
        ≤ B := by omega
    obtain ⟨k, hk⟩ := ih (t + Nat.find hex + 1)
      (step total perm (runFrom total perm f t (Nat.find hex) s) true) hInv2 hphi3
    refine ⟨Nat.find hex + 1 + k, ?_⟩
    rw [runFrom_add total perm f (Nat.find hex + 1) k t s]
    have hrun1 : runFrom total perm f t (Nat.find hex + 1) s
        = step total perm (runFrom total perm f t (Nat.find hex) s) true := by
      rw [runFrom_add total perm f (Nat.find hex) 1 t s]
      show stepG total perm f (t + Nat.find hex) (runFrom total perm f t (Nat.find hex) s) = _
      exact hsg
    rw [hrun1]
    exact hk

/-- C2 — Scheduler termination: for a non-empty word list, any
direction/shuffle setting (the permutation in-range; the direction plays no
role in the loop's control flow), a resume cursor within bounds, and a
judgement stream that keeps eventually producing accepted answers, the
session loop reaches `frontier = total_words` after finitely many steps, is
stationary from then on (the loop has exited), and the frontier never
exceeds `total_words` — so the loop exits successfully exactly when
`frontier == total_words`. -/
theorem scheduler_termination (meta : WordsMeta) (shuffle : Bool)
    (fresh : Nat → Option Nat) (words : List WordsEntry) (f : Nat → Bool)
    (hw : words ≠ [])
    (hn0 : meta.progress.getD 0 ≤ words.length)
    (hp1 : ∀ i, i < words.length → sessionPerm shuffle fresh i < words.length)
    (hfair : ∀ u, ∃ j, u ≤ j ∧ f j = true) :
    ∃ k,
      (runFrom words.length (sessionPerm shuffle fresh) f 0 k
          (initState meta shuffle fresh words)).n = words.length ∧
      (∀ m, runFrom words.length (sessionPerm shuffle fresh) f 0 (k + m)
          (initState meta shuffle fresh words)
        = runFrom words.length (sessionPerm shuffle fresh) f 0 k
          (initState meta shuffle fresh words)) ∧
      (∀ j, (runFrom words.length (sessionPerm shuffle fresh) f 0 j
          (initState meta shuffle fresh words)).n ≤ words.length) := by
  have h0 : 0 < words.length := List.length_pos.mpr hw
  have hperm0 : sessionPerm shuffle fresh 0 < words.length := hp1 0 h0
  obtain ⟨e, he⟩ : ∃ e, words.get? (sessionPerm shuffle fresh 0) = some e := by
    rcases hg : words.get? (sessionPerm shuffle fresh 0) with _ | e
    · have := List.get?_eq_none.mp hg
      omega
    · exact ⟨e, rfl⟩
  have hmem0 : (sessionPerm shuffle fresh 0, e, 0)
      ∈ (initState meta shuffle fresh words).rotation := by
    show _ ∈ initRotation (sessionPerm shuffle fresh) words
    simp only [initRotation, List.mem_filterMap]
    refine ⟨0, List.mem_range.mpr (by simp [windowSize]), ?_⟩
    rw [he]
    rfl
  have hmemP : ∀ x ∈ (initState meta shuffle fresh words).rotation,
      x.2.2 < totalProgress := by
    intro x hx
    simp only [initState, initRotation, List.mem_filterMap] at hx
    obtain ⟨i, _, hi⟩ := hx
    rcases ho : words.get? (sessionPerm shuffle fresh i) with _ | e2
    · rw [ho] at hi
      exact Option.noConfusion hi
    · rw [ho] at hi
      cases hi
      simp [totalProgress]
  have hInv0 : SchedInv words.length (initState meta shuffle fresh words) :=
    ⟨hn0, fun _ => List.ne_nil_of_mem hmem0, hmemP⟩
  obtain ⟨k, hk⟩ := sched_terminates_aux words.length (sessionPerm shuffle fresh) f hfair
    (phi words.length (initState meta shuffle fresh words)) 0
    (initState meta shuffle fresh words) hInv0 (Nat.le_refl _)
  refine ⟨k, hk, ?_, ?_⟩
  · intro m
    rw [runFrom_add words.length (sessionPerm shuffle fresh) f k m 0 _]
    exact runFrom_stable _ _ _ _ (by rw [hk]; exact Nat.lt_irrefl _) m (0 + k)
  · intro j
    exact (runFrom_inv words.length (sessionPerm shuffle fresh) f j 0 _ hInv0).1

/-- Concrete instance of `scheduler_termination`: a one-word session with
all answers correct is done (frontier 1) after 3 steps. -/
theorem scheduler_termination_witness :
    (runFrom 1 (sessionPerm false (fun _ => none)) (fun _ => true) 0 3
        (initState metaA false (fun _ => none) [entryA])).n = 1 := by
  obtain ⟨k, hk, hstab, hbound⟩ := scheduler_termination metaA false (fun _ => none)
    [entryA] (fun _ => true) (by decide) (by decide) (fun i h => h)
    (fun u => ⟨u, Nat.le_refl u, rfl⟩)
  exact Nat.le_antisymm (hbound 3) (by decide)
